import Mathlib

/-!
Shallow embedding of the calcium-imaging numeric pipeline
(`src/pipeline/normalizer.py`, `src/pipeline/baseline.py`,
`src/pipeline/filters.py`).

Cell values of a pandas DataFrame are IEEE floating-point numbers; the
embedding models them as exact rationals extended with the three special
values `inf`, `neginf` and `nan` (`Val`), with the IEEE rules for the
arithmetic the pipeline performs.  A DataFrame is a list of row labels, a
list of column labels and a cell function (`DF`); a pandas Series is an
index list and a cell function (`Series`).  Label alignment of pandas
binary operations (same-label fast path, otherwise sorted union with `nan`
for the unmatched cells) is modelled explicitly.  Fallible operations
(validation errors raised by the Python code) return `Except String`.
-/

namespace CaImg

/-- A float cell value: an exact rational, plus or minus infinity, or NaN
(missing). -/
inductive Val where
  | num (q : ℚ)
  | inf
  | neginf
  | nan
deriving DecidableEq, Repr

/-- True exactly on `nan` (pandas `isna`). -/
def Val.isNan : Val → Bool
  | .nan => true
  | _ => false

/-- True exactly on finite numbers. -/
def Val.isNum : Val → Bool
  | .num _ => true
  | _ => false

/-- IEEE negation. -/
def Val.neg : Val → Val
  | .num q => .num (-q)
  | .inf => .neginf
  | .neginf => .inf
  | .nan => .nan

/-- IEEE addition (NaN propagates; `inf + neginf = nan`). -/
def Val.add : Val → Val → Val
  | .nan, _ => .nan
  | _, .nan => .nan
  | .num a, .num b => .num (a + b)
  | .num _, .inf => .inf
  | .num _, .neginf => .neginf
  | .inf, .num _ => .inf
  | .inf, .inf => .inf
  | .inf, .neginf => .nan
  | .neginf, .num _ => .neginf
  | .neginf, .inf => .nan
  | .neginf, .neginf => .neginf

/-- IEEE subtraction, as addition of the negation. -/
def Val.sub (a b : Val) : Val := Val.add a (Val.neg b)

/-- IEEE multiplication (`0 * inf = nan`). -/
def Val.mul : Val → Val → Val
  | .nan, _ => .nan
  | _, .nan => .nan
  | .num a, .num b => .num (a * b)
  | .num a, .inf => if a = 0 then .nan else if 0 < a then .inf else .neginf
  | .num a, .neginf => if a = 0 then .nan else if 0 < a then .neginf else .inf
  | .inf, .num b => if b = 0 then .nan else if 0 < b then .inf else .neginf
  | .neginf, .num b => if b = 0 then .nan else if 0 < b then .neginf else .inf
  | .inf, .inf => .inf
  | .inf, .neginf => .neginf
  | .neginf, .inf => .neginf
  | .neginf, .neginf => .inf

/-- IEEE division.  A zero divisor is the float `+0.0` (the only zero the
pipeline can produce as a divisor), so `a / 0` is signed by `a` alone;
the two float zeros collapse to the single rational `0`. -/
def Val.div : Val → Val → Val
  | .nan, _ => .nan
  | _, .nan => .nan
  | .num a, .num b =>
      if b = 0 then (if a = 0 then .nan else if 0 < a then .inf else .neginf)
      else .num (a / b)
  | .num _, .inf => .num 0
  | .num _, .neginf => .num 0
  | .inf, .num b => if 0 ≤ b then .inf else .neginf
  | .neginf, .num b => if 0 ≤ b then .neginf else .inf
  | .inf, .inf => .nan
  | .inf, .neginf => .nan
  | .neginf, .inf => .nan
  | .neginf, .neginf => .nan

/-- IEEE absolute value. -/
def Val.absV : Val → Val
  | .num a => .num |a|
  | .inf => .inf
  | .neginf => .inf
  | .nan => .nan

/-- The float comparison `v >= q` (false whenever `v` is NaN). -/
def Val.geQ : Val → ℚ → Bool
  | .num a, q => decide (q ≤ a)
  | .inf, _ => true
  | .neginf, _ => false
  | .nan, _ => false

/-- A pandas DataFrame: ordered row labels, ordered column labels, and a
cell function.  Only the cells at `rows × cols` are meaningful. -/
structure DF where
  rows : List ℕ
  cols : List ℕ
  data : ℕ → ℕ → Val

/-- A pandas Series: ordered index labels and a value function. -/
structure Series where
  idx : List ℕ
  data : ℕ → Val

/-- The `BaseLike` union of `normalizer.py`: a baseline may be a DataFrame,
a Series (per-channel), or a scalar. -/
inductive BaseLike where
  | table (t : DF)
  | vec (s : Series)
  | scalar (v : Val)

/-- Two DataFrames are equal as pandas tables: same labels in the same
order and the same cell value at every labelled position. -/
def DF.equiv (a b : DF) : Prop :=
  a.rows = b.rows ∧ a.cols = b.cols ∧
    ∀ r ∈ a.rows, ∀ c ∈ a.cols, a.data r c = b.data r c

instance (a b : DF) : Decidable (DF.equiv a b) := by
  unfold DF.equiv
  exact inferInstance

/-- Insertion of a label into a sorted label list. -/
def insortNat (x : ℕ) : List ℕ → List ℕ
  | [] => [x]
  | y :: t => if x ≤ y then x :: y :: t else y :: insortNat x t

/-- Ascending sort of a label list. -/
def sortNat (l : List ℕ) : List ℕ := l.foldr insortNat []

/-- Sorted, duplicate-free union of two label lists (what `pandas.Index.union`
returns when the two indexes are not identical). -/
def sortedUnion (a b : List ℕ) : List ℕ := sortNat ((a ++ b).dedup)

/-- Alignment of two label axes, as pandas does it: an index is returned
unchanged when the two are identical, otherwise the sorted union. -/
def unionIdx (a b : List ℕ) : List ℕ := if a = b then a else sortedUnion a b

/-- Elementwise binary operation between two DataFrames with pandas label
alignment: both axes are aligned, a cell missing from either operand
contributes `nan`. -/
def dfBinDF (op : Val → Val → Val) (a b : DF) : DF :=
  { rows := unionIdx a.rows b.rows
    cols := unionIdx a.cols b.cols
    data := fun r c =>
      op (if r ∈ a.rows ∧ c ∈ a.cols then a.data r c else Val.nan)
        (if r ∈ b.rows ∧ c ∈ b.cols then b.data r c else Val.nan) }

/-- Elementwise binary operation between a DataFrame and a Series, aligned
on columns (pandas broadcasting of a per-column Series over the rows). -/
def dfBinSeries (op : Val → Val → Val) (a : DF) (s : Series) : DF :=
  { rows := a.rows
    cols := unionIdx a.cols s.idx
    data := fun r c =>
      op (if c ∈ a.cols then a.data r c else Val.nan)
        (if c ∈ s.idx then s.data c else Val.nan) }

/-- Elementwise binary operation between a DataFrame and a scalar. -/
def dfBinScalar (op : Val → Val → Val) (a : DF) (v : Val) : DF :=
  { a with data := fun r c => op (a.data r c) v }

/-- Dispatch of a pandas binary operation over the three baseline shapes. -/
def binBase (op : Val → Val → Val) (df : DF) (b : BaseLike) : DF :=
  match b with
  | .table t => dfBinDF op df t
  | .vec s => dfBinSeries op df s
  | .scalar v => dfBinScalar op df v

/-- Cellwise map over a DataFrame (labels preserved). -/
def DF.mapVals (df : DF) (f : Val → Val) : DF :=
  { df with data := fun r c => f (df.data r c) }

/-- The values of column `c` in row order. -/
def DF.colList (df : DF) (c : ℕ) : List Val :=
  df.rows.map (fun r => df.data r c)

/-- A DataFrame built from per-column value lists in row order
(row `i` of column `c` is entry `i` of `f c`). -/
def DF.ofCols (rows cols : List ℕ) (f : ℕ → List Val) : DF :=
  { rows := rows
    cols := cols
    data := fun r c => (f c).getD (rows.indexOf r) Val.nan }

/-- Comparison used to sort non-NaN float values (`neginf` least, `inf`
greatest, finite numbers by their rational order; never applied to NaN,
which the statistics drop first). -/
def Val.leB : Val → Val → Bool
  | .nan, _ => true
  | _, .nan => true
  | .neginf, _ => true
  | .num _, .neginf => false
  | .inf, .neginf => false
  | .num a, .num b => decide (a ≤ b)
  | .num _, .inf => true
  | .inf, .num _ => false
  | .inf, .inf => true

/-- The non-NaN values of a list (pandas `skipna`). -/
def dropNan (l : List Val) : List Val := l.filter (fun v => !v.isNan)

/-- Insertion into a `Val.leB`-sorted list. -/
def insortVal (x : Val) : List Val → List Val
  | [] => [x]
  | y :: t => if Val.leB x y then x :: y :: t else y :: insortVal x t

/-- Insertion sort by `Val.leB`. -/
def sortVals (l : List Val) : List Val := l.foldr insortVal []

/-- The pandas median of a value list: NaN values are skipped, the
remaining values sorted; an empty remainder gives NaN, an odd count the
middle value, an even count the mean of the two middle values. -/
def medianVals (l : List Val) : Val :=
  let s := sortVals (dropNan l)
  let m := s.length
  if m = 0 then Val.nan
  else if m % 2 = 1 then s.getD (m / 2) Val.nan
  else Val.div (Val.add (s.getD (m / 2 - 1) Val.nan) (s.getD (m / 2) Val.nan)) (Val.num 2)

/-- The pandas/NumPy quantile with linear interpolation at fraction
`q ∈ [0,1]`: NaN skipped, values sorted, position `h = (m-1)q`, result
`s[⌊h⌋] + (h − ⌊h⌋)(s[⌈h⌉] − s[⌊h⌋])`. -/
def quantileVals (l : List Val) (q : ℚ) : Val :=
  let s := sortVals (dropNan l)
  let m := s.length
  if m = 0 then Val.nan
  else
    let h : ℚ := ((m : ℚ) - 1) * q
    let lo := (⌊h⌋).toNat
    let hi := (⌈h⌉).toNat
    Val.add (s.getD lo Val.nan)
      (Val.mul (Val.num (h - (lo : ℚ))) (Val.sub (s.getD hi Val.nan) (s.getD lo Val.nan)))

/-- The pandas mean of a value list with NaN skipped; NaN when nothing
remains. -/
def meanVals (l : List Val) : Val :=
  let s := dropNan l
  if s.length = 0 then Val.nan
  else Val.div (s.foldl Val.add (Val.num 0)) (Val.num (s.length : ℚ))

namespace Normalizer

/-- From `Normalizer._safe_baseline`: one entry of
`baseline.where(baseline.abs() >= eps, eps)` — the entry itself when its
absolute value compares `>= eps` (false for NaN), else `+eps`. -/
def safeVal (eps : ℚ) (v : Val) : Val :=
  if (Val.absV v).geQ eps then v else Val.num eps

/-- From `Normalizer._safe_baseline`: replace every baseline entry whose
absolute value is below `eps` (or NaN) by `+eps`; the scalar branch
applies the same test to the single value. -/
def safe_baseline (b : BaseLike) (eps : ℚ) : BaseLike :=
  match b with
  | .table t => .table { t with data := fun r c => safeVal eps (t.data r c) }
  | .vec s => .vec { s with data := fun i => safeVal eps (s.data i) }
  | .scalar v => .scalar (safeVal eps v)

/-- From `Normalizer.subtract`: pointwise `F - F0` with pandas
alignment/broadcasting.  (`_to_float_df` is the identity here: `Val`
already models float cells.) -/
def subtract (df : DF) (b : BaseLike) : DF := binBase Val.sub df b

/-- From `deltaF_over_F`: `out.replace([inf, -inf], nan)` on one cell. -/
def cleanInf : Val → Val
  | .inf => .nan
  | .neginf => .nan
  | v => v

/-- From `deltaF_over_F`: `out.fillna(q)` on one cell. -/
def fillnaVal (q : ℚ) : Val → Val
  | .nan => .num q
  | v => v

/-- From `deltaF_over_F`: `out.clip(lower=0.0)` on one cell (pandas clip
leaves NaN alone and maps `-inf` to the bound). -/
def clip0 : Val → Val
  | .num x => .num (max x 0)
  | .neginf => .num 0
  | v => v

/-- From `Normalizer.deltaF_over_F`: `(F - F0_safe) / F0_safe` with the
safe baseline, then optional percent scaling, replacement of infinities
by NaN, optional fill of NaN, and optional clipping of negatives —
in the order of the source. -/
def deltaF_over_F (df : DF) (b : BaseLike) (eps : ℚ)
    (asPercent : Bool) (clipNegatives : Bool) (fillnaValue : Option ℚ) : DF :=
  let safeBase := safe_baseline b eps
  let out0 := binBase Val.div (binBase Val.sub df safeBase) safeBase
  let out1 := if asPercent then out0.mapVals (fun v => Val.mul v (Val.num 100)) else out0
  let out2 := out1.mapVals cleanInf
  let out3 := match fillnaValue with
    | some q => out2.mapVals (fillnaVal q)
    | none => out2
  if clipNegatives then out3.mapVals clip0 else out3

end Normalizer

/-- Forward fill of a value list: a NaN entry takes the most recent
non-NaN value before it (`acc`), if any. -/
def ffillGo (acc : Option Val) : List Val → List Val
  | [] => []
  | v :: t =>
      if v.isNan then (acc.getD Val.nan) :: ffillGo acc t
      else v :: ffillGo (some v) t

/-- Pandas `Series.ffill`. -/
def ffill (l : List Val) : List Val := ffillGo none l

/-- The first non-NaN value of a list, if any. -/
def nextVal : List Val → Option Val
  | [] => none
  | v :: t => if v.isNan then nextVal t else some v

/-- Pandas `Series.bfill`: a NaN entry takes the next non-NaN value after
it, if any. -/
def bfill : List Val → List Val
  | [] => []
  | v :: t => (if v.isNan then (nextVal t).getD Val.nan else v) :: bfill t

namespace BaselineComputer

/-- The six baseline strategies of `BaselineComputer` (the source
dispatches on a mode string and raises on an unknown one; internal
callers only use these six). -/
inductive BMode where
  | pre_stim_median
  | global_median
  | global_percentile
  | rolling_median
  | rolling_percentile
  | rolling_mean

/-- The constructor parameters of `BaselineComputer` (the mode is passed
separately to `compute`). -/
structure Cfg where
  stim_frame : Option ℤ
  pre_window : ℤ
  rolling_window : ℕ
  global_percentile_q : ℚ
  rolling_percentile_q : ℚ
  roll_min_frac : ℚ

/-- From `BaselineComputer._validate_stim_and_window`: the stimulus frame
must be present and in `[1, n_rows]`, and the pre-window at least 3
(`_validate_positive`). -/
def validateStimAndWindow (bc : Cfg) (nRows : ℕ) : Except String Unit :=
  match bc.stim_frame with
  | none => .error "STIM_FRAME is None; pre-stim baseline requires a stimulus frame."
  | some s =>
      if s ≤ 0 ∨ (nRows : ℤ) < s then .error "STIM_FRAME out of range after trimming"
      else if bc.pre_window < 3 then .error "BASELINE_PRE_WINDOW must be >= 3"
      else .ok ()

/-- A per-channel Series broadcast to every row of `df` (the
`np.tile(f0.values, (n,1))` construction with the index and columns of
`df`). -/
def broadcastRows (df : DF) (f0 : ℕ → Val) : DF :=
  { rows := df.rows, cols := df.cols, data := fun _ c => f0 c }

/-- From `BaselineComputer.baseline_pre_stim_median`: validate, slice the
rows at positions `[max 0 (stim - pre_window), stim)`, take their
per-channel median, and broadcast it to every row. -/
def baseline_pre_stim_median (bc : Cfg) (df : DF) : Except String (DF × Series) :=
  match validateStimAndWindow bc df.rows.length with
  | .error e => .error e
  | .ok _ =>
      let s : ℤ := bc.stim_frame.getD 0
      let start : ℕ := (s - bc.pre_window).toNat
      let stim : ℕ := s.toNat
      let rowsSlice := (df.rows.drop start).take (stim - start)
      let f0 : ℕ → Val := fun c => medianVals (rowsSlice.map (fun r => df.data r c))
      .ok (broadcastRows df f0, { idx := df.cols, data := f0 })

/-- From `BaselineComputer.baseline_global_median`: the per-channel median
over all rows, broadcast. -/
def baseline_global_median (df : DF) : Except String (DF × Series) :=
  let f0 : ℕ → Val := fun c => medianVals (df.colList c)
  .ok (broadcastRows df f0, { idx := df.cols, data := f0 })

/-- From `BaselineComputer.baseline_global_percentile`: validate
`q ∈ [0,100]`, then the per-channel `q`-th percentile over all rows,
broadcast. -/
def baseline_global_percentile (bc : Cfg) (df : DF) : Except String (DF × Series) :=
  if ¬ (0 ≤ bc.global_percentile_q ∧ bc.global_percentile_q ≤ 100) then
    .error "GLOBAL_PERCENTILE_Q must be in the range 0 to 100"
  else
    let f0 : ℕ → Val := fun c => quantileVals (df.colList c) (bc.global_percentile_q / 100)
    .ok (broadcastRows df f0, { idx := df.cols, data := f0 })

/-- The rolling minimum-periods bound `max(3, ceil(window * roll_min_frac))`. -/
def minPeriods (w : ℕ) (frac : ℚ) : ℕ := max 3 (⌈(w : ℚ) * frac⌉).toNat

/-- A pandas centered rolling window over a value list: the window for
output position `i` with window length `w` covers positions
`[i + 1 + (w-1)/2 - w, i + (w-1)/2]` clipped to the list; the statistic is
applied when at least `minp` non-NaN values are present, else NaN. -/
def rollingList (w minp : ℕ) (stat : List Val → Val) (l : List Val) : List Val :=
  let n := l.length
  let off := (w - 1) / 2
  (List.range n).map (fun i =>
    let lo := (i + 1 + off) - w
    let hi := min n (i + 1 + off)
    let win := (l.drop lo).take (hi - lo)
    if minp ≤ (dropNan win).length then stat win else Val.nan)

/-- A rolling statistic applied per column, followed by `bfill` then
`ffill` (the `base.bfill().ffill()` edge-fill of the source). -/
def rollingDF (df : DF) (w minp : ℕ) (stat : List Val → Val) : DF :=
  DF.ofCols df.rows df.cols (fun c => ffill (bfill (rollingList w minp stat (df.colList c))))

/-- From `BaselineComputer.baseline_rolling_median`: validate the window,
centered rolling median with `min_periods`, edge fill, and the
per-channel median of the result as representative value. -/
def baseline_rolling_median (bc : Cfg) (df : DF) : Except String (DF × Series) :=
  if bc.rolling_window < 3 then .error "ROLLING_WINDOW must be >= 3"
  else
    let base := rollingDF df bc.rolling_window (minPeriods bc.rolling_window bc.roll_min_frac) medianVals
    .ok (base, { idx := df.cols, data := fun c => medianVals (base.colList c) })

/-- From `BaselineComputer._rolling_apply_quantile` and
`baseline_rolling_percentile`: validate the window, centered rolling
`np.nanquantile` with `min_periods`, edge fill, and the per-channel
median of the result as representative value. -/
def baseline_rolling_percentile (bc : Cfg) (df : DF) : Except String (DF × Series) :=
  if bc.rolling_window < 3 then .error "ROLLING_WINDOW must be >= 3"
  else
    let base := rollingDF df bc.rolling_window (minPeriods bc.rolling_window bc.roll_min_frac)
      (fun win => quantileVals win (bc.rolling_percentile_q / 100))
    .ok (base, { idx := df.cols, data := fun c => medianVals (base.colList c) })

/-- From `BaselineComputer.baseline_rolling_mean`: validate the window,
centered rolling mean with `min_periods`, edge fill, and the per-channel
median of the result as representative value. -/
def baseline_rolling_mean (bc : Cfg) (df : DF) : Except String (DF × Series) :=
  if bc.rolling_window < 3 then .error "ROLLING_WINDOW must be >= 3"
  else
    let base := rollingDF df bc.rolling_window (minPeriods bc.rolling_window bc.roll_min_frac) meanVals
    .ok (base, { idx := df.cols, data := fun c => medianVals (base.colList c) })

/-- From `BaselineComputer.compute`: dispatch on the mode. -/
def compute (bc : Cfg) (mode : BMode) (df : DF) : Except String (DF × Series) :=
  match mode with
  | .pre_stim_median => baseline_pre_stim_median bc df
  | .global_median => baseline_global_median df
  | .global_percentile => baseline_global_percentile bc df
  | .rolling_median => baseline_rolling_median bc df
  | .rolling_percentile => baseline_rolling_percentile bc df
  | .rolling_mean => baseline_rolling_mean bc df

end BaselineComputer

namespace FilterApplier

/-- The two filter methods of `FilterApplier` (the source dispatches on a
string and raises on anything else). -/
inductive FMethod where
  | savgol
  | gaussian

/-- The Gaussian boundary modes accepted by the source
(`reflect | nearest | mirror | wrap`). -/
inductive GBound where
  | reflect
  | nearest
  | mirror
  | wrap

/-- The `np.pad` modes the fallback uses. -/
inductive PadMode where
  | edge
  | reflect
  | wrap

/-- From `_gaussian_numpy`: the mapping of the boundary mode to an
`np.pad` mode (`nearest` to `edge`; `reflect` and `mirror` both to
NumPy `reflect`; anything else to `wrap`). -/
def padModeOf : GBound → PadMode
  | .nearest => .edge
  | .reflect => .reflect
  | .mirror => .reflect
  | .wrap => .wrap

/-- The source index into a list of length `n` that `np.pad` reads for
(possibly out-of-range) position `j`: clamping for `edge`, the period
`2(n-1)` edge-excluding reflection for `reflect`, and `mod n` for
`wrap`. -/
def padIdx (mode : PadMode) (n : ℕ) (j : ℤ) : ℕ :=
  match mode with
  | .edge => ((min (max j 0) ((n : ℤ) - 1))).toNat
  | .reflect =>
      if n ≤ 1 then 0
      else
        let p : ℤ := 2 * ((n : ℤ) - 1)
        let m := j % p
        (if m < (n : ℤ) then m else p - m).toNat
  | .wrap => if n = 0 then 0 else (j % (n : ℤ)).toNat

/-- Python `round`: round half to even (`int(round(x))` for a float `x`). -/
def pyRound (x : ℚ) : ℤ :=
  let f := ⌊x⌋
  let r := x - (f : ℚ)
  if r < 1 / 2 then f
  else if 1 / 2 < r then f + 1
  else if f % 2 = 0 then f else f + 1

/-- From `_gaussian_numpy`: the kernel radius `int(max(1, round(3 * sigma)))`. -/
def gaussRadius (sigma : ℚ) : ℕ := (max 1 (pyRound (3 * sigma))).toNat

/-- From `_gaussian_numpy`: the normalized truncated Gaussian kernel.
The float evaluation of `np.exp` is transcendental, so it enters the
embedding as the parameter `gexp` (exactly the expression
`exp (-0.5 * (kx / sigma)^2)` of the source is passed to it). -/
def gaussKernel (gexp : ℚ → ℚ) (sigma : ℚ) : List ℚ :=
  let radius := gaussRadius sigma
  let raw := (List.range (2 * radius + 1)).map
    (fun (j : ℕ) => gexp (-(1 / 2) * ((((j : ℚ) - (radius : ℚ)) / sigma)) ^ 2))
  let s := raw.sum
  raw.map (fun k => k / s)

/-- From `_gaussian_numpy`: one column padded by `radius` on both sides
with the chosen `np.pad` mode, then `np.convolve(a_pad, kernel, "valid")`
(the kernel is reversed by convolution; output position `i` is
`sum over t of a_pad[i + t] * kernel[K - 1 - t]`). -/
def gaussianCol (gexp : ℚ → ℚ) (sigma : ℚ) (mode : PadMode) (l : List Val) : List Val :=
  let r := gaussRadius sigma
  let ker := gaussKernel gexp sigma
  let kk := ker.length
  let padAt : ℤ → Val := fun j => l.getD (padIdx mode l.length (j - (r : ℤ))) Val.nan
  (List.range l.length).map (fun (i : ℕ) =>
    ((List.range kk).map
        (fun (t : ℕ) =>
          Val.mul (Val.num (ker.getD (kk - 1 - t) 0)) (padAt ((i : ℤ) + (t : ℤ))))).foldl
      Val.add (Val.num 0))

/-- Modelled from the spec: `scipy.signal.savgol_filter` is an external
polynomial local-regression smoothing routine, not code of this
repository; per the spec it smooths each channel independently and each
output frame is a finite-weighted local polynomial combination of input
frames.  It is embedded as a columnwise linear map whose weight table
`wts` (output position to weighted input positions) is a parameter. -/
def savgolCol (wts : ℕ → List (ℕ × ℚ)) (l : List Val) : List Val :=
  (List.range l.length).map (fun i =>
    ((wts i).map (fun p => Val.mul (Val.num p.2) (l.getD p.1 (Val.num 0)))).foldl
      Val.add (Val.num 0))

/-- From `_apply_savgol`: the effective Savitzky-Golay window
`max(3, min(savgol_window | 1, max_odd))` where `max_odd` is the largest
odd number at most the sequence length `n`. -/
def effWin (n w : ℕ) : ℕ :=
  max 3 (min (w ||| 1) (if n % 2 = 1 then n else n - 1))

/-- The configuration fields of `FilterApplier.__init__`. -/
structure Cfg where
  method : FMethod
  gaussian_sigma : ℚ
  gauss_boundary : GBound
  savgol_window : ℕ
  savgol_poly : ℕ

/-- From `FilterApplier._restore_nans` together with the mask bookkeeping
of `apply`: the filtered per-column values, with NaN restored at every
position that was NaN in the input (`filtered.where(~nan_mask, nan)`). -/
def restoreNans (df : DF) (f : ℕ → List Val) : DF :=
  { rows := df.rows
    cols := df.cols
    data := fun r c =>
      if (df.data r c).isNan then Val.nan
      else (f c).getD (df.rows.indexOf r) Val.nan }

/-- From `apply`: the temporary fill of one column — left untouched when
the whole column is NaN, otherwise `bfill` then `ffill`. -/
def filledCol (df : DF) (c : ℕ) : List Val :=
  if (df.colList c).all Val.isNan then df.colList c
  else ffill (bfill (df.colList c))

/-- From `FilterApplier.apply`: an empty table is returned unchanged;
otherwise the NaN mask is recorded, non-all-NaN columns are temporarily
filled, the selected method is applied (for Gaussian, `_apply_gaussian`
returns the filled data unchanged when `sigma <= 0` and otherwise
convolves each column — the in-repository NumPy fallback path; for
Savitzky-Golay, `_apply_savgol` returns the filled data unchanged when
`n < 3` and otherwise validates the polynomial order against the
effective window before filtering), and NaN is restored at the recorded
mask. -/
def apply (fa : Cfg) (wts : ℕ → List (ℕ × ℚ)) (gexp : ℚ → ℚ) (df : DF) :
    Except String DF :=
  if df.rows.isEmpty ∨ df.cols.isEmpty then .ok df
  else
    match fa.method with
    | .gaussian =>
        if fa.gaussian_sigma ≤ 0 then .ok (restoreNans df (filledCol df))
        else
          .ok (restoreNans df (fun c =>
            gaussianCol gexp fa.gaussian_sigma (padModeOf fa.gauss_boundary) (filledCol df c)))
    | .savgol =>
        if df.rows.length < 3 then .ok (restoreNans df (filledCol df))
        else if effWin df.rows.length fa.savgol_window ≤ fa.savgol_poly then
          .error "SAVGOL_POLY must be < SAVGOL_WINDOW"
        else if effWin df.rows.length fa.savgol_window < fa.savgol_poly + 2 then
          .error "SAVGOL_WINDOW must be at least POLYORDER + 2"
        else .ok (restoreNans df (fun c => savgolCol wts (filledCol df c)))

end FilterApplier

/-- The baseline value a pandas-aligned binary operation pairs with cell
`(r, c)` of the signal: the table cell, the vector entry of column `c`,
or the scalar. -/
def baseAt (b : BaseLike) (r c : ℕ) : Val :=
  match b with
  | .table t => t.data r c
  | .vec s => s.data c
  | .scalar v => v

/-- The baseline labels coincide with the signal labels (a table shares
both axes, a vector indexes exactly the signal columns, a scalar always
aligns). -/
def alignedTo (b : BaseLike) (df : DF) : Prop :=
  match b with
  | .table t => t.rows = df.rows ∧ t.cols = df.cols
  | .vec s => s.idx = df.cols
  | .scalar _ => True

instance (b : BaseLike) (df : DF) : Decidable (alignedTo b df) := by
  unfold alignedTo
  cases b <;> exact inferInstance

/-- Every baseline entry is a finite number. -/
def finiteBase (b : BaseLike) : Prop :=
  match b with
  | .table t => ∀ r ∈ t.rows, ∀ c ∈ t.cols, (t.data r c).isNum = true
  | .vec s => ∀ c ∈ s.idx, (s.data c).isNum = true
  | .scalar v => v.isNum = true

instance (b : BaseLike) : Decidable (finiteBase b) := by
  unfold finiteBase
  cases b <;> exact inferInstance

/-- Every cell of the table is a finite number or missing — never an
infinity (the data model of the spec: numeric frames with possible
missing values). -/
def DF.wellFormed (df : DF) : Prop :=
  ∀ r ∈ df.rows, ∀ c ∈ df.cols, df.data r c ≠ Val.inf ∧ df.data r c ≠ Val.neginf

instance (df : DF) : Decidable (DF.wellFormed df) := by
  unfold DF.wellFormed
  exact inferInstance

/-- Adding a baseline back onto a table, with the same pandas alignment
and broadcasting as `subtract` (the `+` of the round-trip property). -/
def addBack (df : DF) (b : BaseLike) : DF := binBase Val.add df b

/-- A one-cell signal table holding the number 1 (used as a concrete
input below). -/
def dfOne : DF := { rows := [0], cols := [0], data := fun _ _ => Val.num 1 }

/-- A per-channel baseline vector whose single channel name `1` does not
occur among the columns of `dfOne`. -/
def vMis : Series := { idx := [1], data := fun _ => Val.num 5 }

/-- A 3-frame, 2-channel table with one interior missing cell (channel 0,
frame 1) and the value `r + c` elsewhere. -/
def dfW : DF :=
  { rows := [0, 1, 2]
    cols := [0, 1]
    data := fun r c => if r = 1 ∧ c = 0 then Val.nan else Val.num ((r : ℚ) + (c : ℚ)) }

/-- The 100-frame, 2-channel table of the spec example, with value
`r + c` at frame `r`, channel `c`. -/
def df100 : DF :=
  { rows := List.range 100
    cols := [0, 1]
    data := fun r c => Val.num ((r : ℚ) + (c : ℚ)) }

/-- A `BaselineComputer` configuration with the defaults of the source
(`stim_frame=44` as in the spec example, `pre_window=43`,
`rolling_window=101`, `q=30/10`, `roll_min_frac=0.2`). -/
def bc44 : BaselineComputer.Cfg :=
  { stim_frame := some 44
    pre_window := 43
    rolling_window := 101
    global_percentile_q := 30
    rolling_percentile_q := 10
    roll_min_frac := 1 / 5 }

/-- A value is NaN exactly when it is the constructor `nan`. -/
theorem Val.isNan_iff (v : Val) : v.isNan = true ↔ v = Val.nan := by
  cases v <;> simp [Val.isNan]

/-- A value is a finite number exactly when it is some `num q`. -/
theorem Val.isNum_iff (v : Val) : v.isNum = true ↔ ∃ q, v = Val.num q := by
  cases v <;> simp [Val.isNum]

/-- Subtracting and re-adding a finite number is the identity on every
float value (NaN and infinities absorb both operations). -/
theorem Val.sub_add_cancel_num (v : Val) (q : ℚ) :
    Val.add (Val.sub v (Val.num q)) (Val.num q) = v := by
  cases v <;> simp [Val.sub, Val.add, Val.neg]

/-- Aligning an axis with itself returns it unchanged. -/
theorem unionIdx_self (a : List ℕ) : unionIdx a a = a := by
  simp [unionIdx]

/-- Row labels of an aligned binary operation with a baseline. -/
theorem binBase_rows (op : Val → Val → Val) (df : DF) (b : BaseLike)
    (h : alignedTo b df) : (binBase op df b).rows = df.rows := by
  cases b with
  | table t =>
      obtain ⟨hr, _⟩ := h
      simp [binBase, dfBinDF, hr, unionIdx_self]
  | vec s => simp [binBase, dfBinSeries]
  | scalar v => simp [binBase, dfBinScalar]

/-- Column labels of an aligned binary operation with a baseline. -/
theorem binBase_cols (op : Val → Val → Val) (df : DF) (b : BaseLike)
    (h : alignedTo b df) : (binBase op df b).cols = df.cols := by
  cases b with
  | table t =>
      obtain ⟨_, hc⟩ := h
      simp [binBase, dfBinDF, hc, unionIdx_self]
  | vec s =>
      have hc : s.idx = df.cols := h
      simp [binBase, dfBinSeries, hc, unionIdx_self]
  | scalar v => simp [binBase, dfBinScalar]

/-- A cell of an aligned binary operation with a baseline is the
operation applied to the signal cell and the baseline value at that
cell. -/
theorem binBase_cell (op : Val → Val → Val) (df : DF) (b : BaseLike)
    (h : alignedTo b df) (r c : ℕ) (hr : r ∈ df.rows) (hc : c ∈ df.cols) :
    (binBase op df b).data r c = op (df.data r c) (baseAt b r c) := by
  cases b with
  | table t =>
      obtain ⟨h1, h2⟩ := h
      have hrt : r ∈ t.rows := by rw [h1]; exact hr
      have hct : c ∈ t.cols := by rw [h2]; exact hc
      simp [binBase, dfBinDF, baseAt, hr, hc, hrt, hct]
  | vec s =>
      have hc2 : c ∈ s.idx := by rw [h]; exact hc
      simp [binBase, dfBinSeries, baseAt, hc, hc2]
  | scalar v => simp [binBase, dfBinScalar, baseAt]

/-- `safe_baseline` preserves alignment with the signal table. -/
theorem safe_baseline_aligned (b : BaseLike) (df : DF) (eps : ℚ)
    (h : alignedTo b df) : alignedTo (Normalizer.safe_baseline b eps) df := by
  cases b <;> simp [Normalizer.safe_baseline, alignedTo] <;> exact h

/-- The baseline value `safe_baseline` pairs with a cell is `safeVal` of
the original baseline value there. -/
theorem safe_baseline_at (b : BaseLike) (eps : ℚ) (r c : ℕ) :
    baseAt (Normalizer.safe_baseline b eps) r c =
      Normalizer.safeVal eps (baseAt b r c) := by
  cases b <;> simp [Normalizer.safe_baseline, baseAt]

/-- Row labels of `Normalizer.subtract` under alignment. -/
theorem subtract_rows (df : DF) (b : BaseLike) (h : alignedTo b df) :
    (Normalizer.subtract df b).rows = df.rows :=
  binBase_rows _ df b h

/-- Column labels of `Normalizer.subtract` under alignment. -/
theorem subtract_cols (df : DF) (b : BaseLike) (h : alignedTo b df) :
    (Normalizer.subtract df b).cols = df.cols :=
  binBase_cols _ df b h

/-- A cell of `Normalizer.subtract` under alignment. -/
theorem subtract_cell (df : DF) (b : BaseLike) (h : alignedTo b df)
    (r c : ℕ) (hr : r ∈ df.rows) (hc : c ∈ df.cols) :
    (Normalizer.subtract df b).data r c = Val.sub (df.data r c) (baseAt b r c) :=
  binBase_cell _ df b h r c hr hc

/-- Setting the lowest bit of a natural number rounds it up to the
nearest odd number (the Python expression `w | 1`). -/
theorem lor_one_eq (w : ℕ) : w ||| 1 = if w % 2 = 0 then w + 1 else w := by
  have h1 : (1 : ℕ) = Nat.bit true 0 := by simp [Nat.bit_val]
  conv_lhs => rw [← Nat.bit_decomp w, h1]
  rw [Nat.lor_bit]
  have hdiv : Nat.div2 w = w / 2 := Nat.div2_val w
  have hmod := Nat.div_add_mod w 2
  have hb : Nat.bit (Nat.bodd w || true) (Nat.div2 w ||| 0) = 2 * (w / 2) + 1 := by
    simp [Nat.bit_val, hdiv]
  rw [hb]
  rcases Nat.mod_two_eq_zero_or_one w with h | h <;> simp [h] <;> omega

/-- An in-range `getD` lookup returns a member of the list. -/
theorem getD_mem_self {α : Type} (l : List α) (i : ℕ) (d : α)
    (h : i < l.length) : l.getD i d ∈ l := by
  rw [List.getD_eq_getElem l d h]
  exact List.getElem_mem h

/-- Forward fill preserves the length. -/
theorem ffillGo_length (acc : Option Val) (l : List Val) :
    (ffillGo acc l).length = l.length := by
  induction l generalizing acc with
  | nil => rfl
  | cons v t ih =>
      by_cases h : v.isNan = true <;> simp [ffillGo, h, ih]

/-- Backward fill preserves the length. -/
theorem bfill_length (l : List Val) : (bfill l).length = l.length := by
  induction l with
  | nil => rfl
  | cons v t ih => simp [bfill, ih]

/-- A list with a non-NaN member has a non-NaN first non-NaN value. -/
theorem nextVal_of_mem (l : List Val) (h : ∃ x ∈ l, x.isNan = false) :
    ∃ u, nextVal l = some u ∧ u.isNan = false := by
  induction l with
  | nil => simp at h
  | cons v t ih =>
      by_cases hv : v.isNan = true
      · have ht : ∃ x ∈ t, x.isNan = false := by
          obtain ⟨x, hx, hxn⟩ := h
          rcases List.mem_cons.mp hx with rfl | hxt
          · rw [hv] at hxn; cases hxn
          · exact ⟨x, hxt, hxn⟩
        obtain ⟨u, hu, hun⟩ := ih ht
        exact ⟨u, by simp [nextVal, hv, hu], hun⟩
      · exact ⟨v, by simp [nextVal, hv], by simp at hv; exact hv⟩

/-- After backward fill, position `i` is non-NaN whenever some position
at or after `i` is non-NaN. -/
theorem bfill_getD_nonNan (l : List Val) (i : ℕ) (hi : i < l.length)
    (h : ∃ j, i ≤ j ∧ j < l.length ∧ (l.getD j Val.nan).isNan = false) :
    ((bfill l).getD i Val.nan).isNan = false := by
  induction l generalizing i with
  | nil => simp at hi
  | cons v t ih =>
      cases i with
      | zero =>
          by_cases hv : v.isNan = true
          · have ht : ∃ x ∈ t, x.isNan = false := by
              obtain ⟨j, _, hj, hjn⟩ := h
              cases j with
              | zero => simp [List.getD_cons_zero] at hjn; rw [hv] at hjn; cases hjn
              | succ j =>
                  refine ⟨t.getD j Val.nan, ?_, by simpa using hjn⟩
                  exact getD_mem_self t j Val.nan (by simpa using hj)
            obtain ⟨u, hu, hun⟩ := nextVal_of_mem t ht
            simp [bfill, hv, hu, List.getD_cons_zero, hun]
          · simp only [Bool.not_eq_true] at hv
            simp [bfill, hv, List.getD_cons_zero]
      | succ i =>
          have ht : ∃ j, i ≤ j ∧ j < t.length ∧ (t.getD j Val.nan).isNan = false := by
            obtain ⟨j, hij, hj, hjn⟩ := h
            cases j with
            | zero => omega
            | succ j => exact ⟨j, by omega, by simpa using hj, by simpa using hjn⟩
          have := ih i (by simpa using hi) ht
          simpa [bfill] using this

/-- After forward fill, position `i` is non-NaN whenever some position at
or before `i` is non-NaN, or the running value is already non-NaN. -/
theorem ffillGo_getD_nonNan (l : List Val) (acc : Option Val) (i : ℕ)
    (hi : i < l.length)
    (h : (∃ j, j ≤ i ∧ (l.getD j Val.nan).isNan = false) ∨
      (∃ u, acc = some u ∧ u.isNan = false)) :
    ((ffillGo acc l).getD i Val.nan).isNan = false := by
  induction l generalizing acc i with
  | nil => simp at hi
  | cons v t ih =>
      by_cases hv : v.isNan = true
      · cases i with
        | zero =>
            rcases h with ⟨j, hj, hjn⟩ | ⟨u, hu, hun⟩
            · interval_cases j
              simp [List.getD_cons_zero] at hjn
              rw [hv] at hjn; cases hjn
            · simp [ffillGo, hv, hu, List.getD_cons_zero, hun]
        | succ i =>
            have hrec := ih acc i (by simpa using hi) ?_
            · simpa [ffillGo, hv] using hrec
            · rcases h with ⟨j, hj, hjn⟩ | hacc
              · cases j with
                | zero =>
                    simp [List.getD_cons_zero] at hjn
                    rw [hv] at hjn; cases hjn
                | succ j => exact Or.inl ⟨j, by omega, by simpa using hjn⟩
              · exact Or.inr hacc
      · cases i with
        | zero =>
            simp only [Bool.not_eq_true] at hv
            simp [ffillGo, hv, List.getD_cons_zero]
        | succ i =>
            have hrec := ih (some v) i (by simpa using hi) ?_
            · simpa [ffillGo, hv] using hrec
            · exact Or.inr ⟨v, rfl, by simp at hv; exact hv⟩

/-- Backward fill leaves non-NaN positions unchanged. -/
theorem bfill_getD_eq (l : List Val) (i : ℕ) (hi : i < l.length)
    (h : (l.getD i Val.nan).isNan = false) :
    (bfill l).getD i Val.nan = l.getD i Val.nan := by
  induction l generalizing i with
  | nil => simp at hi
  | cons v t ih =>
      cases i with
      | zero =>
          simp only [List.getD_cons_zero] at h
          rcases hb : v.isNan with _ | _
          · simp [bfill, hb, List.getD_cons_zero]
          · rw [hb] at h; cases h
      | succ i =>
          have := ih i (by simpa using hi) (by simpa using h)
          simpa [bfill] using this

/-- Forward fill leaves non-NaN positions unchanged. -/
theorem ffillGo_getD_eq (l : List Val) (acc : Option Val) (i : ℕ)
    (hi : i < l.length) (h : (l.getD i Val.nan).isNan = false) :
    (ffillGo acc l).getD i Val.nan = l.getD i Val.nan := by
  induction l generalizing acc i with
  | nil => simp at hi
  | cons v t ih =>
      cases i with
      | zero =>
          simp only [List.getD_cons_zero] at h
          rcases hb : v.isNan with _ | _
          · simp [ffillGo, hb, List.getD_cons_zero]
          · rw [hb] at h; cases h
      | succ i =>
          have := ih (if v.isNan then acc else some v) i (by simpa using hi)
            (by simpa using h)
          by_cases hv : v.isNan = true <;>
            simp [ffillGo, hv] <;>
            [skip; skip] <;> simp_all [ffillGo, hv]

/-- Every value in a backward-filled list is a value of the list or NaN. -/
theorem bfill_mem (l : List Val) : ∀ v ∈ bfill l, v ∈ l ∨ v = Val.nan := by
  induction l with
  | nil => simp [bfill]
  | cons x t ih =>
      intro v hv
      simp only [bfill, List.mem_cons] at hv
      rcases hv with rfl | hvt
      · by_cases hx : x.isNan = true
        · simp only [hx, if_pos]
          cases hnv : nextVal t with
          | none => simp [hnv]
          | some u =>
              have hu : u ∈ t := by
                clear ih
                induction t with
                | nil => simp [nextVal] at hnv
                | cons y s ihs =>
                    by_cases hy : y.isNan = true
                    · simp only [nextVal, hy, if_pos] at hnv
                      exact List.mem_cons_of_mem _ (ihs hnv)
                    · simp only [nextVal, hy, if_neg, Bool.not_eq_true] at hnv
                      simp only [Option.some.injEq] at hnv
                      exact hnv ▸ List.mem_cons_self y s
              simp [hnv]
              exact Or.inl (Or.inr hu)
        · simp [hx]
      · rcases ih v hvt with h | h
        · exact Or.inl (List.mem_cons_of_mem _ h)
        · exact Or.inr h

/-- Every value in a forward-filled list is a value of the list, the
initial running value, or NaN. -/
theorem ffillGo_mem (l : List Val) (acc : Option Val) :
    ∀ v ∈ ffillGo acc l, v ∈ l ∨ (∃ u, acc = some u ∧ v = u) ∨ v = Val.nan := by
  induction l generalizing acc with
  | nil => simp [ffillGo]
  | cons x t ih =>
      intro v hv
      by_cases hx : x.isNan = true
      · simp only [ffillGo, hx, if_pos, List.mem_cons] at hv
        rcases hv with rfl | hvt
        · cases acc with
          | none => simp [Option.getD]
          | some u => simp [Option.getD]
        · rcases ih acc v hvt with h | h | h
          · exact Or.inl (List.mem_cons_of_mem _ h)
          · exact Or.inr (Or.inl h)
          · exact Or.inr (Or.inr h)
      · simp only [ffillGo, hx, if_neg, Bool.not_eq_true, List.mem_cons] at hv
        rcases hv with rfl | hvt
        · exact Or.inl (List.mem_cons_self _ _)
        · rcases ih (some x) v hvt with h | ⟨u, hu, rfl⟩ | h
          · exact Or.inl (List.mem_cons_of_mem _ h)
          · simp only [Option.some.injEq] at hu
            exact Or.inl (hu ▸ List.mem_cons_self _ _)
          · exact Or.inr (Or.inr h)

/-- The positional lookup of a column list at the index of a row label
is the cell at that row. -/
theorem colList_getD_indexOf (df : DF) (c r : ℕ) (hr : r ∈ df.rows) :
    (df.colList c).getD (df.rows.indexOf r) Val.nan = df.data r c := by
  have hlt : df.rows.indexOf r < df.rows.length := List.indexOf_lt_length.mpr hr
  have hlt2 : df.rows.indexOf r < (df.colList c).length := by
    simpa [DF.colList] using hlt
  rw [List.getD_eq_getElem _ _ hlt2]
  simp only [DF.colList, List.getElem_map]
  rw [List.getElem_indexOf hlt]

/-- The temporary fill preserves the column length. -/
theorem filledCol_length (df : DF) (c : ℕ) :
    (FilterApplier.filledCol df c).length = df.rows.length := by
  unfold FilterApplier.filledCol
  split
  · simp [DF.colList]
  · simp [ffill, ffillGo_length, bfill_length, DF.colList]

/-- When the column holds a non-NaN cell, every position of the filled
column is non-NaN. -/
theorem filledCol_nonNan (df : DF) (c : ℕ)
    (hex : ∃ r ∈ df.rows, (df.data r c).isNan = false) :
    ∀ i < df.rows.length,
      ((FilterApplier.filledCol df c).getD i Val.nan).isNan = false := by
  intro i hi
  obtain ⟨r0, hr0, hr0n⟩ := hex
  have hnall : ¬ (df.colList c).all Val.isNan := by
    simp only [List.all_eq_true, not_forall]
    refine ⟨df.data r0 c, List.mem_map.mpr ⟨r0, hr0, rfl⟩, ?_⟩
    simp [hr0n]
  unfold FilterApplier.filledCol
  simp only [hnall, if_neg, Bool.not_eq_true]
  set l := df.colList c with hl
  have hllen : l.length = df.rows.length := by simp [hl, DF.colList]
  set j0 := l.indexOf (df.data r0 c) with hj0
  have hmem : df.data r0 c ∈ l := List.mem_map.mpr ⟨r0, hr0, rfl⟩
  have hj0lt : j0 < l.length := List.indexOf_lt_length.mpr hmem
  have hj0n : (l.getD j0 Val.nan).isNan = false := by
    rw [List.getD_eq_getElem _ _ hj0lt, List.getElem_indexOf hj0lt]
    exact hr0n
  have hbn : ∀ k ≤ j0, ((bfill l).getD k Val.nan).isNan = false := by
    intro k hk
    exact bfill_getD_nonNan l k (lt_of_le_of_lt hk hj0lt) ⟨j0, hk, hj0lt, hj0n⟩
  have hmin : min i j0 < (bfill l).length := by
    rw [bfill_length]
    omega
  apply ffillGo_getD_nonNan (bfill l) none i (by rw [bfill_length]; omega)
  exact Or.inl ⟨min i j0, Nat.min_le_left i j0, hbn (min i j0) (Nat.min_le_right i j0)⟩

/-- Every value of the filled column is a value of the column or NaN. -/
theorem filledCol_mem (df : DF) (c : ℕ) :
    ∀ v ∈ FilterApplier.filledCol df c, v ∈ df.colList c ∨ v = Val.nan := by
  intro v hv
  unfold FilterApplier.filledCol at hv
  by_cases h : (df.colList c).all Val.isNan
  · rw [if_pos h] at hv
    exact Or.inl hv
  · rw [if_neg h] at hv
    rcases ffillGo_mem (bfill (df.colList c)) none v hv with h1 | ⟨u, hu, _⟩ | h1
    · exact bfill_mem _ v h1
    · cases hu
    · exact Or.inr h1

/-- When the column holds a non-NaN cell and the table is well-formed,
every position of the filled column is a finite number. -/
theorem filledCol_num (df : DF) (c : ℕ) (hc : c ∈ df.cols)
    (hwf : df.wellFormed)
    (hex : ∃ r ∈ df.rows, (df.data r c).isNan = false) :
    ∀ i < df.rows.length,
      ∃ q, (FilterApplier.filledCol df c).getD i Val.nan = Val.num q := by
  intro i hi
  have hn := filledCol_nonNan df c hex i hi
  have hlt : i < (FilterApplier.filledCol df c).length := by
    rw [filledCol_length]; exact hi
  have hmem := filledCol_mem df c _ (getD_mem_self _ i Val.nan hlt)
  rcases hmem with h1 | h1
  · obtain ⟨r, hr, hrv⟩ := List.mem_map.mp h1
    have hw := hwf r hr c hc
    rw [hrv] at hw
    cases hval : (FilterApplier.filledCol df c).getD i Val.nan with
    | num q => exact ⟨q, rfl⟩
    | inf => rw [hval] at hw; exact absurd rfl hw.1
    | neginf => rw [hval] at hw; exact absurd rfl hw.2
    | nan => rw [hval] at hn; simp [Val.isNan] at hn
  · rw [h1] at hn
    simp [Val.isNan] at hn

/-- The `np.pad` source index is always in range for a non-empty list. -/
theorem padIdx_lt (mode : FilterApplier.PadMode) (n : ℕ) (j : ℤ) (hn : 1 ≤ n) :
    FilterApplier.padIdx mode n j < n := by
  cases mode with
  | edge =>
      simp only [FilterApplier.padIdx]
      have hle : min (max j 0) ((n : ℤ) - 1) ≤ (n : ℤ) - 1 := min_le_right _ _
      have h2 : (((n : ℤ) - 1)).toNat < n := by omega
      exact lt_of_le_of_lt (Int.toNat_le_toNat hle) h2
  | reflect =>
      simp only [FilterApplier.padIdx]
      by_cases h1 : n ≤ 1
      · simp [h1]; omega
      · rw [if_neg h1]
        have hn2 : 2 ≤ n := by omega
        have hp : (0 : ℤ) < 2 * ((n : ℤ) - 1) := by
          have : (2 : ℤ) ≤ (n : ℤ) := by exact_mod_cast hn2
          omega
        have hm0 : 0 ≤ j % (2 * ((n : ℤ) - 1)) := Int.emod_nonneg j (by omega)
        have hmlt : j % (2 * ((n : ℤ) - 1)) < 2 * ((n : ℤ) - 1) :=
          Int.emod_lt_of_pos j hp
        by_cases h2 : j % (2 * ((n : ℤ) - 1)) < (n : ℤ)
        · rw [if_pos h2]
          omega
        · rw [if_neg h2]
          omega
  | wrap =>
      simp only [FilterApplier.padIdx]
      have hne : n ≠ 0 := by omega
      rw [if_neg hne]
      have h0 : (0 : ℤ) < (n : ℤ) := by exact_mod_cast Nat.pos_of_ne_zero hne
      have := Int.emod_lt_of_pos j h0
      have h2 := Int.emod_nonneg j (by omega : (n : ℤ) ≠ 0)
      omega

/-- A left fold of IEEE addition over finite numbers starting from a
finite number is a finite number. -/
theorem foldl_add_num (L : List Val) (hL : ∀ v ∈ L, ∃ q, v = Val.num q) :
    ∀ a : ℚ, ∃ y, L.foldl Val.add (Val.num a) = Val.num y := by
  induction L with
  | nil => exact fun a => ⟨a, rfl⟩
  | cons v t ih =>
      intro a
      obtain ⟨q, rfl⟩ := hL v (List.mem_cons_self _ _)
      exact ih (fun w hw => hL w (List.mem_cons_of_mem _ hw)) (a + q)

/-- The Gaussian fallback column has the length of its input. -/
theorem gaussianCol_length (gexp : ℚ → ℚ) (sigma : ℚ)
    (mode : FilterApplier.PadMode) (l : List Val) :
    (FilterApplier.gaussianCol gexp sigma mode l).length = l.length := by
  simp only [FilterApplier.gaussianCol, List.length_map, List.length_range]

/-- The Gaussian fallback maps a non-empty all-finite column to an
all-finite column. -/
theorem gaussianCol_num (gexp : ℚ → ℚ) (sigma : ℚ)
    (mode : FilterApplier.PadMode) (l : List Val)
    (hl : ∀ v ∈ l, ∃ q, v = Val.num q) (hne : 1 ≤ l.length) :
    ∀ i < l.length,
      ∃ y, (FilterApplier.gaussianCol gexp sigma mode l).getD i Val.nan = Val.num y := by
  intro i hi
  simp only [FilterApplier.gaussianCol]
  rw [List.getD_eq_getElem _ _ (by simpa using hi), List.getElem_map,
    List.getElem_range]
  apply foldl_add_num
  intro v hv
  obtain ⟨t, _, rfl⟩ := List.mem_map.mp hv
  obtain ⟨q, hq⟩ := hl _ (getD_mem_self l _ Val.nan (padIdx_lt _ _ _ hne))
  rw [hq]
  exact ⟨_, rfl⟩

/-- The modelled Savitzky-Golay column has the length of its input. -/
theorem savgolCol_length (wts : ℕ → List (ℕ × ℚ)) (l : List Val) :
    (FilterApplier.savgolCol wts l).length = l.length := by
  simp only [FilterApplier.savgolCol, List.length_map, List.length_range]

/-- The modelled Savitzky-Golay filter maps an all-finite column to an
all-finite column. -/
theorem savgolCol_num (wts : ℕ → List (ℕ × ℚ)) (l : List Val)
    (hl : ∀ v ∈ l, ∃ q, v = Val.num q) :
    ∀ i < l.length,
      ∃ y, (FilterApplier.savgolCol wts l).getD i Val.nan = Val.num y := by
  intro i hi
  simp only [FilterApplier.savgolCol]
  rw [List.getD_eq_getElem _ _ (by simpa using hi), List.getElem_map,
    List.getElem_range]
  apply foldl_add_num
  intro v hv
  obtain ⟨p, _, rfl⟩ := List.mem_map.mp hv
  by_cases hp : p.1 < l.length
  · obtain ⟨q, hq⟩ := hl _ (getD_mem_self l _ (Val.num 0) hp)
    rw [hq]
    exact ⟨_, rfl⟩
  · rw [List.getD_eq_default _ _ (by omega)]
    exact ⟨_, rfl⟩

/-- Alignment only depends on the labels of the signal table. -/
theorem alignedTo_of_labels (b : BaseLike) (d1 d2 : DF)
    (h1 : d1.rows = d2.rows) (h2 : d1.cols = d2.cols)
    (h : alignedTo b d2) : alignedTo b d1 := by
  cases b <;> simp [alignedTo, h1, h2] <;> simp [alignedTo] at h <;> exact h

/-- A cellwise map preserves the row labels. -/
theorem mapVals_rows (df : DF) (f : Val → Val) : (df.mapVals f).rows = df.rows := rfl

/-- A cellwise map preserves the column labels. -/
theorem mapVals_cols (df : DF) (f : Val → Val) : (df.mapVals f).cols = df.cols := rfl

/-- Row labels of `deltaF_over_F` under alignment, for every option
combination. -/
theorem deltaF_rows (df : DF) (b : BaseLike) (eps : ℚ)
    (ap cn : Bool) (fv : Option ℚ) (h : alignedTo b df) :
    (Normalizer.deltaF_over_F df b eps ap cn fv).rows = df.rows := by
  have hsb := safe_baseline_aligned b df eps h
  have h1 := binBase_rows Val.sub df (Normalizer.safe_baseline b eps) hsb
  have h1c := binBase_cols Val.sub df (Normalizer.safe_baseline b eps) hsb
  have hsb2 := alignedTo_of_labels (Normalizer.safe_baseline b eps) _ df h1 h1c hsb
  have h2 := binBase_rows Val.div _ (Normalizer.safe_baseline b eps) hsb2
  cases ap <;> cases cn <;> cases fv <;> exact h2.trans h1

/-- Column labels of `deltaF_over_F` under alignment, for every option
combination. -/
theorem deltaF_cols (df : DF) (b : BaseLike) (eps : ℚ)
    (ap cn : Bool) (fv : Option ℚ) (h : alignedTo b df) :
    (Normalizer.deltaF_over_F df b eps ap cn fv).cols = df.cols := by
  have hsb := safe_baseline_aligned b df eps h
  have h1 := binBase_rows Val.sub df (Normalizer.safe_baseline b eps) hsb
  have h1c := binBase_cols Val.sub df (Normalizer.safe_baseline b eps) hsb
  have hsb2 := alignedTo_of_labels (Normalizer.safe_baseline b eps) _ df h1 h1c hsb
  have h2 := binBase_cols Val.div _ (Normalizer.safe_baseline b eps) hsb2
  cases ap <;> cases cn <;> cases fv <;> exact h2.trans h1c

/-- The cell formula of `deltaF_over_F` with the default options
(no percent scaling, no clipping, fill value 0): divide the baseline-safe
difference by the safe baseline, convert infinities to NaN, and fill NaN
with 0. -/
theorem deltaF_cell_default (df : DF) (b : BaseLike) (eps : ℚ)
    (h : alignedTo b df) (r c : ℕ) (hr : r ∈ df.rows) (hc : c ∈ df.cols) :
    (Normalizer.deltaF_over_F df b eps false false (some 0)).data r c =
      Normalizer.fillnaVal 0 (Normalizer.cleanInf
        (Val.div (Val.sub (df.data r c) (Normalizer.safeVal eps (baseAt b r c)))
          (Normalizer.safeVal eps (baseAt b r c)))) := by
  have hsb := safe_baseline_aligned b df eps h
  have h1r := binBase_rows Val.sub df (Normalizer.safe_baseline b eps) hsb
  have h1c := binBase_cols Val.sub df (Normalizer.safe_baseline b eps) hsb
  have hsb2 := alignedTo_of_labels (Normalizer.safe_baseline b eps) _ df h1r h1c hsb
  have h2 := binBase_cell Val.div _ (Normalizer.safe_baseline b eps) hsb2 r c
    (by rw [h1r]; exact hr) (by rw [h1c]; exact hc)
  have h1 := binBase_cell Val.sub df (Normalizer.safe_baseline b eps) hsb r c hr hc
  have hdef : (Normalizer.deltaF_over_F df b eps false false (some 0)).data r c =
      Normalizer.fillnaVal 0 (Normalizer.cleanInf
        ((binBase Val.div (binBase Val.sub df (Normalizer.safe_baseline b eps))
          (Normalizer.safe_baseline b eps)).data r c)) := rfl
  rw [hdef, h2, h1, safe_baseline_at]

/-- `restoreNans` preserves the labels of the table. -/
theorem restoreNans_rows (df : DF) (f : ℕ → List Val) :
    (FilterApplier.restoreNans df f).rows = df.rows := rfl

/-- `restoreNans` preserves the labels of the table. -/
theorem restoreNans_cols (df : DF) (f : ℕ → List Val) :
    (FilterApplier.restoreNans df f).cols = df.cols := rfl

/-- When the per-column data is non-NaN at every in-range position of
every column holding a non-NaN cell, the restored table is missing at
exactly the positions at which the input was missing. -/
theorem restoreNans_mask (df : DF) (f : ℕ → List Val)
    (hf : ∀ c ∈ df.cols, (∃ r ∈ df.rows, (df.data r c).isNan = false) →
      ∀ i < df.rows.length, ((f c).getD i Val.nan).isNan = false) :
    ∀ r ∈ df.rows, ∀ c ∈ df.cols,
      ((FilterApplier.restoreNans df f).data r c).isNan = (df.data r c).isNan := by
  intro r hr c hc
  unfold FilterApplier.restoreNans
  dsimp only
  by_cases hn : (df.data r c).isNan = true
  · rw [if_pos hn, hn]
    rfl
  · rw [if_neg hn]
    simp only [Bool.not_eq_true] at hn
    rw [hn]
    exact hf c hc ⟨r, hr, hn⟩ (df.rows.indexOf r) (List.indexOf_lt_length.mpr hr)

/-- Restoring NaN onto the filled columns recovers the original table
(the `sigma <= 0` and `n < 3` pass-through paths). -/
theorem restore_filled_equiv (df : DF) :
    DF.equiv (FilterApplier.restoreNans df (FilterApplier.filledCol df)) df := by
  refine ⟨rfl, rfl, ?_⟩
  intro r hr c hc
  unfold FilterApplier.restoreNans
  dsimp only
  by_cases hn : (df.data r c).isNan = true
  · rw [if_pos hn, (Val.isNan_iff _).mp hn]
  · rw [if_neg hn]
    simp only [Bool.not_eq_true] at hn
    unfold FilterApplier.filledCol
    have hidx : df.rows.indexOf r < (df.colList c).length := by
      simp only [DF.colList, List.length_map]
      exact List.indexOf_lt_length.mpr hr
    have hcell := colList_getD_indexOf df c r hr
    have hpos : ((df.colList c).getD (df.rows.indexOf r) Val.nan).isNan = false := by
      rw [hcell]; exact hn
    by_cases hall : (df.colList c).all Val.isNan
    · rw [if_pos hall]
      exact hcell
    · rw [if_neg hall]
      have hb := bfill_getD_eq (df.colList c) (df.rows.indexOf r) hidx hpos
      have hposb : ((bfill (df.colList c)).getD (df.rows.indexOf r) Val.nan).isNan = false := by
        rw [hb]; exact hpos
      have hidxb : df.rows.indexOf r < (bfill (df.colList c)).length := by
        rw [bfill_length]; exact hidx
      unfold ffill
      rw [ffillGo_getD_eq _ none _ hidxb hposb, hb]
      exact hcell

/-- A `FilterApplier` configuration selecting the Gaussian method with
`sigma = 0` (and otherwise the defaults of the source). -/
def filterCfgG0 : FilterApplier.Cfg :=
  { method := FilterApplier.FMethod.gaussian
    gaussian_sigma := 0
    gauss_boundary := FilterApplier.GBound.reflect
    savgol_window := 30
    savgol_poly := 3 }

/-- A `FilterApplier` configuration selecting the Gaussian method with
`sigma = 2` (the default sigma of the source). -/
def filterCfgG2 : FilterApplier.Cfg :=
  { method := FilterApplier.FMethod.gaussian
    gaussian_sigma := 2
    gauss_boundary := FilterApplier.GBound.reflect
    savgol_window := 30
    savgol_poly := 3 }

/-- The safe baseline of a zero entry is `+eps`. -/
theorem safeVal_num_zero (eps : ℚ) (heps : 0 < eps) :
    Normalizer.safeVal eps (Val.num 0) = Val.num eps := by
  unfold Normalizer.safeVal
  have h : (Val.absV (Val.num 0)).geQ eps = false := by
    simp only [Val.absV, Val.geQ, abs_zero, decide_eq_false_iff_not, not_le]
    exact heps
  rw [h]
  simp

/-- The safe baseline of a missing entry is `+eps` (NaN fails the
`abs >= eps` comparison). -/
theorem safeVal_nan (eps : ℚ) : Normalizer.safeVal eps Val.nan = Val.num eps := by
  simp [Normalizer.safeVal, Val.absV, Val.geQ]

/-- The cleaned-and-filled quotient of two finite numbers with a nonzero
divisor is the exact finite quotient. -/
theorem num_dff_eval (x eps : ℚ) (heps : 0 < eps) :
    Normalizer.fillnaVal 0 (Normalizer.cleanInf
      (Val.div (Val.sub (Val.num x) (Val.num eps)) (Val.num eps))) =
      Val.num ((x - eps) / eps) := by
  have hne : eps ≠ 0 := ne_of_gt heps
  simp [Val.sub, Val.add, Val.neg, Val.div, hne, Normalizer.cleanInf,
    Normalizer.fillnaVal, sub_eq_add_neg]

/-- C1: for every signal table and every aligned baseline shape with
`0 < eps`, `deltaF_over_F` (default options) computes, at every cell,
`(signal − F0_safe) / F0_safe` with `F0_safe` equal to the baseline entry
when `|entry| >= eps` and `+eps` otherwise (followed only by the
infinity-to-NaN-to-`fill_value` cleanup); in particular a baseline entry
of exactly 0 paired with a finite signal value `x` yields the finite
number `(x − eps)/eps` — never an infinity or NaN. -/
theorem C1_deltaF_safe_division (df : DF) (b : BaseLike) (eps : ℚ)
    (heps : 0 < eps) (halign : alignedTo b df) :
    (∀ r ∈ df.rows, ∀ c ∈ df.cols,
        (Normalizer.deltaF_over_F df b eps false false (some 0)).data r c =
          Normalizer.fillnaVal 0 (Normalizer.cleanInf
            (Val.div (Val.sub (df.data r c) (Normalizer.safeVal eps (baseAt b r c)))
              (Normalizer.safeVal eps (baseAt b r c)))))
    ∧ (∀ r ∈ df.rows, ∀ c ∈ df.cols, ∀ x : ℚ,
        df.data r c = Val.num x → baseAt b r c = Val.num 0 →
          (Normalizer.deltaF_over_F df b eps false false (some 0)).data r c =
            Val.num ((x - eps) / eps)) := by
  constructor
  · intro r hr c hc
    exact deltaF_cell_default df b eps halign r c hr hc
  · intro r hr c hc x hx hb
    rw [deltaF_cell_default df b eps halign r c hr hc, hx, hb,
      safeVal_num_zero eps heps]
    exact num_dff_eval x eps heps

/-- Witness for C1: the one-cell table `dfOne` with signal 5, a scalar
baseline of exactly 0 and `eps = 1` gives the finite value `(5-1)/1 = 4`. -/
theorem C1_deltaF_safe_division_witness :
    (0 : ℚ) < 1 ∧ alignedTo (BaseLike.scalar (Val.num 0)) dfOne ∧
      (∀ r ∈ dfOne.rows, ∀ c ∈ dfOne.cols, ∀ x : ℚ,
        dfOne.data r c = Val.num x →
          baseAt (BaseLike.scalar (Val.num 0)) r c = Val.num 0 →
            (Normalizer.deltaF_over_F dfOne (BaseLike.scalar (Val.num 0)) 1 false false
              (some 0)).data r c = Val.num ((x - 1) / 1)) :=
  ⟨by norm_num, trivial,
    (C1_deltaF_safe_division dfOne (BaseLike.scalar (Val.num 0)) 1 (by norm_num)
      trivial).2⟩

/-- C10: a missing (NaN) baseline entry is treated like a near-zero
baseline: `_safe_baseline` replaces it by `+eps`, and a finite signal
value `x` there produces the finite output `(x − eps)/eps` rather than a
missing value or the fill value. -/
theorem C10_nan_baseline_treated_as_eps (df : DF) (b : BaseLike) (eps : ℚ)
    (heps : 0 < eps) (halign : alignedTo b df) (r c : ℕ)
    (hr : r ∈ df.rows) (hc : c ∈ df.cols) (x : ℚ)
    (hx : df.data r c = Val.num x) (hb : baseAt b r c = Val.nan) :
    baseAt (Normalizer.safe_baseline b eps) r c = Val.num eps ∧
      (Normalizer.deltaF_over_F df b eps false false (some 0)).data r c =
        Val.num ((x - eps) / eps) := by
  constructor
  · rw [safe_baseline_at, hb, safeVal_nan]
  · rw [deltaF_cell_default df b eps halign r c hr hc, hx, hb, safeVal_nan]
    exact num_dff_eval x eps heps

/-- Witness for C10: the one-cell table `dfOne` (signal 1) with a vector
baseline whose entry for its only channel is NaN and `eps = 1` gives
safe baseline 1 and output `(1-1)/1 = 0`. -/
theorem C10_nan_baseline_treated_as_eps_witness :
    (0 : ℚ) < 1 ∧
      alignedTo (BaseLike.vec { idx := [0], data := fun _ => Val.nan }) dfOne ∧
      (0 : ℕ) ∈ dfOne.rows ∧ (0 : ℕ) ∈ dfOne.cols ∧
      dfOne.data 0 0 = Val.num 1 ∧
      baseAt (BaseLike.vec { idx := [0], data := fun _ => Val.nan }) 0 0 = Val.nan ∧
      (baseAt (Normalizer.safe_baseline
          (BaseLike.vec { idx := [0], data := fun _ => Val.nan }) 1) 0 0 = Val.num 1 ∧
        (Normalizer.deltaF_over_F dfOne
          (BaseLike.vec { idx := [0], data := fun _ => Val.nan }) 1 false false
          (some 0)).data 0 0 = Val.num ((1 - 1) / 1)) :=
  ⟨by norm_num, rfl, by decide, by decide, rfl, rfl,
    C10_nan_baseline_treated_as_eps dfOne
      (BaseLike.vec { idx := [0], data := fun _ => Val.nan }) 1 (by norm_num) rfl 0 0
      (by decide) (by decide) 1 rfl rfl⟩

/-- C2: with a stimulus frame in `[1, n]` and a pre-window of at least 3,
`pre_stim_median` succeeds, keeps the labels of the input, and every
output row of every channel carries the median of the rows at positions
`[max 0 (stim − pre_window), stim)` of that channel. -/
theorem C2_pre_stim_median (bc : BaselineComputer.Cfg) (df : DF) (s : ℤ)
    (hs : bc.stim_frame = some s) (h1 : 1 ≤ s)
    (h2 : s ≤ (df.rows.length : ℤ)) (h3 : 3 ≤ bc.pre_window) :
    ∃ F0 f0,
      BaselineComputer.compute bc BaselineComputer.BMode.pre_stim_median df =
        .ok (F0, f0) ∧
      F0.rows = df.rows ∧ F0.cols = df.cols ∧
      (∀ r ∈ df.rows, ∀ c ∈ df.cols,
        F0.data r c = medianVals
          (((df.rows.drop (s - bc.pre_window).toNat).take
              (s.toNat - (s - bc.pre_window).toNat)).map (fun rr => df.data rr c))) := by
  have hval : BaselineComputer.validateStimAndWindow bc df.rows.length = .ok () := by
    unfold BaselineComputer.validateStimAndWindow
    rw [hs]
    dsimp only
    rw [if_neg (by omega), if_neg (by omega)]
  refine ⟨BaselineComputer.broadcastRows df
      (fun c => medianVals (((df.rows.drop (s - bc.pre_window).toNat).take
        (s.toNat - (s - bc.pre_window).toNat)).map (fun rr => df.data rr c))),
    { idx := df.cols
      data := fun c => medianVals (((df.rows.drop (s - bc.pre_window).toNat).take
        (s.toNat - (s - bc.pre_window).toNat)).map (fun rr => df.data rr c)) },
    ?_, rfl, rfl, fun r hr c hc => rfl⟩
  unfold BaselineComputer.compute BaselineComputer.baseline_pre_stim_median
  rw [hval, hs]
  dsimp only
  simp only [Option.getD_some]

/-- Witness for C2: the spec example — `stim_frame = 44`,
`pre_window = 43` on the 100-frame, 2-channel table `df100`. -/
theorem C2_pre_stim_median_witness :
    bc44.stim_frame = some 44 ∧ (1 : ℤ) ≤ 44 ∧
      (44 : ℤ) ≤ (df100.rows.length : ℤ) ∧ (3 : ℤ) ≤ bc44.pre_window ∧
      (∃ F0 f0,
        BaselineComputer.compute bc44 BaselineComputer.BMode.pre_stim_median df100 =
          .ok (F0, f0) ∧
        F0.rows = df100.rows ∧ F0.cols = df100.cols ∧
        (∀ r ∈ df100.rows, ∀ c ∈ df100.cols,
          F0.data r c = medianVals
            (((df100.rows.drop ((44 : ℤ) - bc44.pre_window).toNat).take
                ((44 : ℤ).toNat - ((44 : ℤ) - bc44.pre_window).toNat)).map
              (fun rr => df100.data rr c)))) :=
  ⟨rfl, by norm_num, by decide, by decide,
    C2_pre_stim_median bc44 df100 44 rfl (by norm_num) (by decide) (by decide)⟩

/-- C9: in `pre_stim_median` mode, baseline computation fails exactly
when the stimulus frame is missing or outside `[1, n]` or the pre-window
is below 3; the check precedes any statistic (in this embedding a failure
produces an `error` and no table at all). -/
theorem C9_pre_stim_validation (bc : BaselineComputer.Cfg) (df : DF) :
    (∃ e, BaselineComputer.compute bc BaselineComputer.BMode.pre_stim_median df =
      .error e) ↔
      (bc.stim_frame = none ∨
        ∃ s, bc.stim_frame = some s ∧
          (s ≤ 0 ∨ (df.rows.length : ℤ) < s ∨ bc.pre_window < 3)) := by
  have hstep : (∃ e, BaselineComputer.compute bc
      BaselineComputer.BMode.pre_stim_median df = .error e) ↔
      (∃ e, BaselineComputer.validateStimAndWindow bc df.rows.length = .error e) := by
    unfold BaselineComputer.compute BaselineComputer.baseline_pre_stim_median
    cases h : BaselineComputer.validateStimAndWindow bc df.rows.length with
    | error e => simp
    | ok u => simp
  rw [hstep]
  unfold BaselineComputer.validateStimAndWindow
  cases hs : bc.stim_frame with
  | none => simp
  | some s =>
      dsimp only
      by_cases hrange : s ≤ 0 ∨ (df.rows.length : ℤ) < s
      · rw [if_pos hrange]
        simp only [Except.error.injEq]
        exact iff_of_true ⟨_, rfl⟩ (Or.inr ⟨s, rfl, by omega⟩)
      · rw [if_neg hrange]
        by_cases hpre : bc.pre_window < 3
        · rw [if_pos hpre]
          simp only [Except.error.injEq]
          exact iff_of_true ⟨_, rfl⟩ (Or.inr ⟨s, rfl, by omega⟩)
        · rw [if_neg hpre]
          simp only [reduceCtorEq, exists_false, false_iff, not_or]
          refine ⟨by simp, ?_⟩
          rintro ⟨u, hu, hbad⟩
          injection hu with hu
          omega

/-- C4 counterexample: the claim says an even configured window is
rounded down to odd, so for `n = 100` frames and a configured window of 4
the effective window would be `max 3 (min (4-1) (100-1)) = 3`; the code
computes `4 | 1 = 5`. -/
theorem C4_counterexample :
    FilterApplier.effWin 100 4 ≠ max 3 (min (4 - 1) (100 - 1)) := by decide

/-- C4 (amended): the effective Savitzky-Golay window is the configured
value forced odd by rounding UP when it is even (`w | 1`), clamped to at
most the largest odd number at most the sequence length and to at least
3. -/
theorem C4_effective_window (n w : ℕ) :
    FilterApplier.effWin n w =
      max 3 (min (if w % 2 = 0 then w + 1 else w)
        (if n % 2 = 1 then n else n - 1)) := by
  unfold FilterApplier.effWin
  rw [lor_one_eq]

/-- C8: applying the Gaussian filter with `sigma <= 0` returns a table
equal to the input at every labelled cell, missing cells included. -/
theorem C8_gaussian_sigma_nonpos_identity (fa : FilterApplier.Cfg)
    (wts : ℕ → List (ℕ × ℚ)) (gexp : ℚ → ℚ) (df out : DF)
    (hm : fa.method = FilterApplier.FMethod.gaussian)
    (hs : fa.gaussian_sigma ≤ 0)
    (h : FilterApplier.apply fa wts gexp df = .ok out) :
    DF.equiv out df := by
  unfold FilterApplier.apply at h
  by_cases hemp : df.rows.isEmpty ∨ df.cols.isEmpty
  · rw [if_pos hemp] at h
    injection h with h
    exact h ▸ ⟨rfl, rfl, fun r _ c _ => rfl⟩
  · rw [if_neg hemp, hm] at h
    dsimp only at h
    rw [if_pos hs] at h
    injection h with h
    exact h ▸ restore_filled_equiv df

/-- Witness for C8: the Gaussian configuration with `sigma = 0` applied
to the 3-frame table `dfW` (which has a missing cell) returns `dfW`
itself. -/
theorem C8_gaussian_sigma_nonpos_identity_witness :
    filterCfgG0.method = FilterApplier.FMethod.gaussian ∧
      filterCfgG0.gaussian_sigma ≤ 0 ∧
      DF.equiv (FilterApplier.restoreNans dfW (FilterApplier.filledCol dfW)) dfW :=
  ⟨rfl, by norm_num [filterCfgG0],
    C8_gaussian_sigma_nonpos_identity filterCfgG0 (fun _ => []) (fun _ => 1) dfW _
      rfl (by norm_num [filterCfgG0]) rfl⟩

/-- C3 counterexample: subtracting a per-channel vector baseline whose
channel name (`1`) does not occur in the signal table (single channel
`0`) does NOT preserve the column labels — pandas aligns on the sorted
union, adding the unmatched channel. -/
theorem C3_counterexample :
    (Normalizer.subtract dfOne (BaseLike.vec vMis)).cols ≠ dfOne.cols := by decide

/-- C3 (amended): every baseline strategy returns an F0 table with
exactly the labels of the input; `subtract` and `deltaF_over_F` preserve
the labels for a scalar baseline, a full-table baseline with the same
labels, and a vector baseline indexed exactly by the signal columns; for
a vector baseline with any other index, the rows are preserved but the
output columns are the pandas alignment of the two column sets (the
sorted union when they differ — extra channels appear). -/
theorem C3_label_preservation :
    (∀ (bc : BaselineComputer.Cfg) (mode : BaselineComputer.BMode) (df : DF)
        (F0 : DF) (f0 : Series),
      BaselineComputer.compute bc mode df = .ok (F0, f0) →
        F0.rows = df.rows ∧ F0.cols = df.cols)
    ∧ (∀ (df : DF) (b : BaseLike), alignedTo b df →
        (Normalizer.subtract df b).rows = df.rows ∧
          (Normalizer.subtract df b).cols = df.cols)
    ∧ (∀ (df : DF) (b : BaseLike) (eps : ℚ) (ap cn : Bool) (fv : Option ℚ),
        alignedTo b df →
          (Normalizer.deltaF_over_F df b eps ap cn fv).rows = df.rows ∧
            (Normalizer.deltaF_over_F df b eps ap cn fv).cols = df.cols)
    ∧ (∀ (df : DF) (s : Series),
        (Normalizer.subtract df (BaseLike.vec s)).rows = df.rows ∧
          (Normalizer.subtract df (BaseLike.vec s)).cols = unionIdx df.cols s.idx) := by
  refine ⟨?_, ?_, ?_, ?_⟩
  · intro bc mode df F0 f0 h
    cases mode with
    | pre_stim_median =>
        unfold BaselineComputer.compute BaselineComputer.baseline_pre_stim_median at h
        cases hv : BaselineComputer.validateStimAndWindow bc df.rows.length with
        | error e => rw [hv] at h; exact Except.noConfusion h
        | ok u =>
            rw [hv] at h
            dsimp only at h
            injection h with h
            injection h with h1 h2
            rw [← h1]
            exact ⟨rfl, rfl⟩
    | global_median =>
        unfold BaselineComputer.compute BaselineComputer.baseline_global_median at h
        injection h with h
        injection h with h1 h2
        rw [← h1]
        exact ⟨rfl, rfl⟩
    | global_percentile =>
        unfold BaselineComputer.compute BaselineComputer.baseline_global_percentile at h
        by_cases hq : ¬ (0 ≤ bc.global_percentile_q ∧ bc.global_percentile_q ≤ 100)
        · rw [if_pos hq] at h
          exact Except.noConfusion h
        · rw [if_neg hq] at h
          injection h with h
          injection h with h1 h2
          rw [← h1]
          exact ⟨rfl, rfl⟩
    | rolling_median =>
        unfold BaselineComputer.compute BaselineComputer.baseline_rolling_median at h
        by_cases hw : bc.rolling_window < 3
        · rw [if_pos hw] at h
          exact Except.noConfusion h
        · rw [if_neg hw] at h
          injection h with h
          injection h with h1 h2
          rw [← h1]
          exact ⟨rfl, rfl⟩
    | rolling_percentile =>
        unfold BaselineComputer.compute BaselineComputer.baseline_rolling_percentile at h
        by_cases hw : bc.rolling_window < 3
        · rw [if_pos hw] at h
          exact Except.noConfusion h
        · rw [if_neg hw] at h
          injection h with h
          injection h with h1 h2
          rw [← h1]
          exact ⟨rfl, rfl⟩
    | rolling_mean =>
        unfold BaselineComputer.compute BaselineComputer.baseline_rolling_mean at h
        by_cases hw : bc.rolling_window < 3
        · rw [if_pos hw] at h
          exact Except.noConfusion h
        · rw [if_neg hw] at h
          injection h with h
          injection h with h1 h2
          rw [← h1]
          exact ⟨rfl, rfl⟩
  · intro df b halign
    exact ⟨subtract_rows df b halign, subtract_cols df b halign⟩
  · intro df b eps ap cn fv halign
    exact ⟨deltaF_rows df b eps ap cn fv halign, deltaF_cols df b eps ap cn fv halign⟩
  · intro df s
    exact ⟨rfl, rfl⟩

/-- Witness for C3 (amended): the `global_median` strategy on `dfOne`
keeps its labels, and `subtract` with a vector baseline indexed exactly
by the columns of `dfOne` keeps its labels. -/
theorem C3_label_preservation_witness :
    ((BaselineComputer.broadcastRows dfOne
        (fun c => medianVals (dfOne.colList c))).rows = dfOne.rows ∧
      (BaselineComputer.broadcastRows dfOne
        (fun c => medianVals (dfOne.colList c))).cols = dfOne.cols) ∧
      alignedTo (BaseLike.vec { idx := [0], data := fun _ => Val.num 2 }) dfOne ∧
      ((Normalizer.subtract dfOne
          (BaseLike.vec { idx := [0], data := fun _ => Val.num 2 })).rows = dfOne.rows ∧
        (Normalizer.subtract dfOne
          (BaseLike.vec { idx := [0], data := fun _ => Val.num 2 })).cols = dfOne.cols) :=
  ⟨C3_label_preservation.1 bc44 BaselineComputer.BMode.global_median dfOne _ _ rfl,
    rfl,
    C3_label_preservation.2.1 dfOne
      (BaseLike.vec { idx := [0], data := fun _ => Val.num 2 }) rfl⟩

/-- Under alignment, a finite-valued baseline pairs a finite number with
every labelled cell. -/
theorem finiteBase_at (b : BaseLike) (df : DF) (halign : alignedTo b df)
    (hfin : finiteBase b) (r c : ℕ) (hr : r ∈ df.rows) (hc : c ∈ df.cols) :
    (baseAt b r c).isNum = true := by
  cases b with
  | table t =>
      obtain ⟨h1, h2⟩ := halign
      exact hfin r (by rw [h1]; exact hr) c (by rw [h2]; exact hc)
  | vec s =>
      have hc2 : c ∈ s.idx := by rw [halign]; exact hc
      exact hfin c hc2
  | scalar v => exact hfin

/-- C6 counterexample: the round trip `subtract(signal, b) + b == signal`
fails as a universal statement — a vector baseline with an unmatched
channel name changes the columns, a NaN scalar baseline turns the value 1
into NaN, and an infinite scalar baseline turns it into `inf - inf = nan`. -/
theorem C6_counterexample :
    ¬ DF.equiv (addBack (Normalizer.subtract dfOne (BaseLike.vec vMis))
        (BaseLike.vec vMis)) dfOne
    ∧ ¬ DF.equiv (addBack (Normalizer.subtract dfOne (BaseLike.scalar Val.nan))
        (BaseLike.scalar Val.nan)) dfOne
    ∧ ¬ DF.equiv (addBack (Normalizer.subtract dfOne (BaseLike.scalar Val.inf))
        (BaseLike.scalar Val.inf)) dfOne := by
  decide

/-- C6 (amended): for every signal table and every baseline whose labels
align with the signal (scalar; table with the signal labels; vector
indexed by the signal columns) and whose entries are all finite numbers,
adding the baseline back onto `subtract(signal, baseline)` with the same
broadcasting recovers the signal table exactly — missing or infinite
SIGNAL entries included, since NaN and infinities absorb the subtraction
and the addition identically. -/
theorem C6_roundtrip (df : DF) (b : BaseLike) (halign : alignedTo b df)
    (hfin : finiteBase b) :
    DF.equiv (addBack (Normalizer.subtract df b) b) df := by
  have h1r := subtract_rows df b halign
  have h1c := subtract_cols df b halign
  have halign2 := alignedTo_of_labels b _ df h1r h1c halign
  refine ⟨(binBase_rows Val.add _ b halign2).trans h1r,
    (binBase_cols Val.add _ b halign2).trans h1c, ?_⟩
  intro r hr c hc
  rw [show (addBack (Normalizer.subtract df b) b).rows =
      (binBase Val.add (Normalizer.subtract df b) b).rows from rfl,
    binBase_rows Val.add _ b halign2, h1r] at hr
  rw [show (addBack (Normalizer.subtract df b) b).cols =
      (binBase Val.add (Normalizer.subtract df b) b).cols from rfl,
    binBase_cols Val.add _ b halign2, h1c] at hc
  have hr2 : r ∈ (Normalizer.subtract df b).rows := by rw [h1r]; exact hr
  have hc2 : c ∈ (Normalizer.subtract df b).cols := by rw [h1c]; exact hc
  show (binBase Val.add (Normalizer.subtract df b) b).data r c = df.data r c
  rw [binBase_cell Val.add _ b halign2 r c hr2 hc2,
    subtract_cell df b halign r c hr hc]
  obtain ⟨q, hq⟩ := (Val.isNum_iff _).mp (finiteBase_at b df halign hfin r c hr hc)
  rw [hq]
  exact Val.sub_add_cancel_num _ q

/-- Witness for C6 (amended): the finite scalar baseline 2 on the table
`dfW`, whose missing cell round-trips to missing. -/
theorem C6_roundtrip_witness :
    alignedTo (BaseLike.scalar (Val.num 2)) dfW ∧
      finiteBase (BaseLike.scalar (Val.num 2)) ∧
      DF.equiv (addBack (Normalizer.subtract dfW (BaseLike.scalar (Val.num 2)))
        (BaseLike.scalar (Val.num 2))) dfW :=
  ⟨trivial, rfl, C6_roundtrip dfW (BaseLike.scalar (Val.num 2)) trivial rfl⟩

/-- Every value of a filled column of a well-formed table with a
non-missing cell in that column is a finite number. -/
theorem filledCol_mem_num (df : DF) (c : ℕ) (hc : c ∈ df.cols)
    (hwf : df.wellFormed) (hex : ∃ r ∈ df.rows, (df.data r c).isNan = false) :
    ∀ v ∈ FilterApplier.filledCol df c, ∃ q, v = Val.num q := by
  intro v hv
  obtain ⟨i, hi, hv2⟩ := List.mem_iff_getElem.mp hv
  have hi2 : i < df.rows.length := by
    rw [← filledCol_length df c]
    exact hi
  obtain ⟨q, hq⟩ := filledCol_num df c hc hwf hex i hi2
  rw [List.getD_eq_getElem _ _ hi] at hq
  exact ⟨q, by rw [← hv2, hq]⟩

/-- C7: for every non-empty well-formed table (finite or missing cells)
and both filter methods, a successful `FilterApplier.apply` returns a
table with the same labels whose missing cells are exactly the missing
cells of the input: originally missing positions come back missing
(including entirely-missing columns) and the temporarily filled values
never surface — every other position is non-missing. -/
theorem C7_nan_mask_preserved (fa : FilterApplier.Cfg)
    (wts : ℕ → List (ℕ × ℚ)) (gexp : ℚ → ℚ) (df out : DF)
    (hwf : df.wellFormed)
    (h : FilterApplier.apply fa wts gexp df = .ok out) :
    out.rows = df.rows ∧ out.cols = df.cols ∧
      ∀ r ∈ df.rows, ∀ c ∈ df.cols,
        (out.data r c).isNan = (df.data r c).isNan := by
  unfold FilterApplier.apply at h
  by_cases hemp : df.rows.isEmpty ∨ df.cols.isEmpty
  · rw [if_pos hemp] at h
    injection h with h
    subst h
    exact ⟨rfl, rfl, fun r _ c _ => rfl⟩
  · rw [if_neg hemp] at h
    have hne : 1 ≤ df.rows.length := by
      rcases hrows : df.rows with _ | ⟨a, t⟩
      · rw [hrows] at hemp
        simp at hemp
      · simp
    have main : ∀ g : ℕ → List Val,
        (∀ c ∈ df.cols, (∃ r ∈ df.rows, (df.data r c).isNan = false) →
          ∀ i < df.rows.length, ((g c).getD i Val.nan).isNan = false) →
        FilterApplier.restoreNans df g = out →
        out.rows = df.rows ∧ out.cols = df.cols ∧
          ∀ r ∈ df.rows, ∀ c ∈ df.cols,
            (out.data r c).isNan = (df.data r c).isNan := by
      intro g hg hout
      subst hout
      exact ⟨rfl, rfl, restoreNans_mask df g hg⟩
    have hfill : ∀ c ∈ df.cols,
        (∃ r ∈ df.rows, (df.data r c).isNan = false) →
        ∀ i < df.rows.length,
          ((FilterApplier.filledCol df c).getD i Val.nan).isNan = false :=
      fun c _ hex i hi => filledCol_nonNan df c hex i hi
    have hgauss : ∀ c ∈ df.cols,
        (∃ r ∈ df.rows, (df.data r c).isNan = false) →
        ∀ i < df.rows.length,
          ((FilterApplier.gaussianCol gexp fa.gaussian_sigma
            (FilterApplier.padModeOf fa.gauss_boundary)
            (FilterApplier.filledCol df c)).getD i Val.nan).isNan = false := by
      intro c hc hex i hi
      have hlen : (FilterApplier.filledCol df c).length = df.rows.length :=
        filledCol_length df c
      obtain ⟨y, hy⟩ := gaussianCol_num gexp fa.gaussian_sigma
        (FilterApplier.padModeOf fa.gauss_boundary) (FilterApplier.filledCol df c)
        (filledCol_mem_num df c hc hwf hex) (by rw [hlen]; exact hne) i
        (by rw [hlen]; exact hi)
      rw [hy]
      rfl
    have hsav : ∀ c ∈ df.cols,
        (∃ r ∈ df.rows, (df.data r c).isNan = false) →
        ∀ i < df.rows.length,
          ((FilterApplier.savgolCol wts
            (FilterApplier.filledCol df c)).getD i Val.nan).isNan = false := by
      intro c hc hex i hi
      have hlen : (FilterApplier.filledCol df c).length = df.rows.length :=
        filledCol_length df c
      obtain ⟨y, hy⟩ := savgolCol_num wts (FilterApplier.filledCol df c)
        (filledCol_mem_num df c hc hwf hex) i (by rw [hlen]; exact hi)
      rw [hy]
      rfl
    cases hm : fa.method with
    | gaussian =>
        rw [hm] at h
        dsimp only at h
        by_cases hs : fa.gaussian_sigma ≤ 0
        · rw [if_pos hs] at h
          injection h with h
          exact main _ hfill h
        · rw [if_neg hs] at h
          injection h with h
          exact main _ hgauss h
    | savgol =>
        rw [hm] at h
        dsimp only at h
        by_cases h3 : df.rows.length < 3
        · rw [if_pos h3] at h
          injection h with h
          exact main _ hfill h
        · rw [if_neg h3] at h
          by_cases hv1 : FilterApplier.effWin df.rows.length fa.savgol_window ≤
              fa.savgol_poly
          · rw [if_pos hv1] at h
            exact Except.noConfusion h
          · rw [if_neg hv1] at h
            by_cases hv2 : FilterApplier.effWin df.rows.length fa.savgol_window <
                fa.savgol_poly + 2
            · rw [if_pos hv2] at h
              exact Except.noConfusion h
            · rw [if_neg hv2] at h
              injection h with h
              exact main _ hsav h

/-- Witness for C7: the Gaussian configuration with `sigma = 2` applied
to the well-formed table `dfW` whose cell (frame 1, channel 0) is
missing. -/
theorem C7_nan_mask_preserved_witness :
    DF.wellFormed dfW ∧
      ((FilterApplier.restoreNans dfW (fun c =>
          FilterApplier.gaussianCol (fun _ => 1) filterCfgG2.gaussian_sigma
            (FilterApplier.padModeOf filterCfgG2.gauss_boundary)
            (FilterApplier.filledCol dfW c))).rows = dfW.rows ∧
        (FilterApplier.restoreNans dfW (fun c =>
          FilterApplier.gaussianCol (fun _ => 1) filterCfgG2.gaussian_sigma
            (FilterApplier.padModeOf filterCfgG2.gauss_boundary)
            (FilterApplier.filledCol dfW c))).cols = dfW.cols ∧
        ∀ r ∈ dfW.rows, ∀ c ∈ dfW.cols,
          ((FilterApplier.restoreNans dfW (fun c =>
            FilterApplier.gaussianCol (fun _ => 1) filterCfgG2.gaussian_sigma
              (FilterApplier.padModeOf filterCfgG2.gauss_boundary)
              (FilterApplier.filledCol dfW c))).data r c).isNan =
            (dfW.data r c).isNan) :=
  ⟨by decide,
    C7_nan_mask_preserved filterCfgG2 (fun _ => []) (fun _ => 1) dfW _
      (by decide) rfl⟩

end CaImg
